import Mathlib

/-!
Shallow embedding of the mold linker's Identical Code Folding (ICF) pass
(src/icf.cc) and the file-priority assignment of the driver (src/main.cc),
with theorems checking the natural-language specification against it.

Modelling conventions:
* Pointers of the C++ object graph become indices into arenas held in a
  LinkState value; a null InputSection pointer becomes an Option.
* SHA-256 digests are opaque identity tokens (collisions are treated as
  identity by the spec), so the initial digest is modelled as the exact
  list of tokens absorbed into the hash stream, and the propagation hash
  is an abstract function H over digests.
* Parallel loops whose per-index writes are disjoint (or idempotent) are
  modelled as simultaneous pointwise updates; sequential loops are folds.
* C++ operations that are undefined behaviour (out-of-bounds access,
  unsigned underflow feeding a loop bound) are modelled with Option:
  a result of none marks the undefined execution.
-/

namespace Mold

/-- ELF constants used by icf.cc (values from the ELF specification;
the repository's elf.h is not under src/). -/
def SHF_WRITE : Nat := 1

def SHF_ALLOC : Nat := 2

def SHF_EXECINSTR : Nat := 4

def SHT_NOBITS : Nat := 8

def SHT_INIT_ARRAY : Nat := 14

def SHT_FINI_ARRAY : Nat := 15

/-- Section header: the two fields icf.cc reads. -/
structure ElfShdr where
  sh_flags : Nat
  sh_type : Nat
deriving DecidableEq, Inhabited

/-- An interned byte string from a mergeable section. -/
structure SectionFragment where
  data : List Nat
deriving DecidableEq, Inhabited

/-- A resolved reference from a relocation to a section fragment. -/
structure SectionFragmentRef where
  addend : Int
  frag : SectionFragment
deriving DecidableEq, Inhabited

/-- A symbol: resolves to a fragment, to a section (by arena index) plus
value, or to nothing (undefined/absolute). -/
structure Symbol where
  frag : Option SectionFragment
  input_section : Option Nat
  value : Int
deriving DecidableEq, Inhabited

/-- A section-level relocation record. -/
structure ElfRela where
  r_offset : Int
  r_type : Int
  r_addend : Int
  r_sym : Nat
deriving DecidableEq, Inhabited

/-- A relocation attached to an FDE record; it holds its target symbol
directly (EhReloc stores a Symbol reference in the source). -/
structure EhReloc where
  sym : Symbol
  type : Int
  offset : Int
  addend : Int
deriving DecidableEq, Inhabited

/-- An exception-handling frame description entry. -/
structure FdeRecord where
  contents : List Nat
  rels : List EhReloc
deriving DecidableEq, Inhabited

/-- An input section.  Immutable attributes come from the parser; the
trailing fields are the mutable ICF state.  The priority field models
InputSection::get_priority(), the total order over sections derived from
file load order (its definition lives outside src/; the spec describes it
as a total order used as tie-breaker). -/
structure InputSection where
  shdr : ElfShdr
  name : String
  contents : List Nat
  rels : List ElfRela
  has_fragments : List Bool
  rel_fragments : List SectionFragmentRef
  fdes : List FdeRecord
  fileIdx : Nat
  priority : Int
  icf_eligible : Bool
  icf_leaf : Bool
  icf_idx : Nat
  leader : Option Nat
  is_dead : Bool
deriving DecidableEq, Inhabited

/-- An object file: its section pointer list (null entries allowed) and
its symbol table. -/
structure ObjectFile where
  sections : List (Option Nat)
  symbols : List Symbol
deriving DecidableEq, Inhabited

/-- The linker's object graph as read and mutated by the ICF pass:
a section arena (indices replace InputSection pointers) and the global
object-file list out::objs. -/
structure LinkState where
  secs : List InputSection
  objs : List ObjectFile
deriving DecidableEq, Inhabited

/-- Dereference a section index (sections are always accessed through
valid pointers in the source; a dangling index yields the default). -/
def secOf (st : LinkState) (k : Nat) : InputSection :=
  st.secs.getD k default

/-- Modelled from the spec: is_c_identifier (defined outside src/) decides
whether a section name is a valid C identifier, i.e. nonempty, starting
with a letter or underscore, continuing with letters, digits or
underscores. -/
def is_c_identifier (s : String) : Bool :=
  match s.toList with
  | [] => false
  | c :: cs => (c.isAlpha || c == '_') && cs.all (fun d => d.isAlphanum || d == '_')

/-- Embedding of is_eligible (icf.cc lines 16-27). -/
def is_eligible (isec : InputSection) : Bool :=
  let is_alloc := isec.shdr.sh_flags &&& SHF_ALLOC != 0
  let is_executable := isec.shdr.sh_flags &&& SHF_EXECINSTR != 0
  let is_writable := isec.shdr.sh_flags &&& SHF_WRITE != 0
  let is_bss := isec.shdr.sh_type == SHT_NOBITS
  let is_init := isec.shdr.sh_type == SHT_INIT_ARRAY || isec.name == ".init"
  let is_fini := isec.shdr.sh_type == SHT_FINI_ARRAY || isec.name == ".fini"
  let is_enumerable := is_c_identifier isec.name
  is_alloc && is_executable && !is_writable && !is_bss &&
    !is_init && !is_fini && !is_enumerable

/-- Embedding of is_leaf (icf.cc lines 38-47). -/
def is_leaf (isec : InputSection) : Bool :=
  isec.rels.isEmpty && isec.fdes.all (fun fde => fde.rels.length ≤ 1)

/-- Whether section index k is an input section of some object file,
i.e. appears (non-null) in some file's section list. -/
def consideredB (st : LinkState) (k : Nat) : Bool :=
  st.objs.any (fun f => f.sections.any (fun o => o == some k))

/-- The first classification pass of icf_sections (icf.cc lines 314-328):
every input section passing is_eligible is tagged icf_leaf (if is_leaf)
or icf_eligible.  The parallel loop writes each section's own flags only
(idempotently if a section were listed twice), so it is modelled as a
simultaneous pointwise update of the arena. -/
def classify (st : LinkState) : LinkState :=
  { st with
    secs := st.secs.mapIdx fun k s =>
      if consideredB st k && is_eligible s then
        if is_leaf s then { s with icf_leaf := true }
        else { s with icf_eligible := true }
      else s }

lemma is_eligible_iff (s : InputSection) :
    is_eligible s = true ↔
      (s.shdr.sh_flags &&& SHF_ALLOC ≠ 0 ∧
       s.shdr.sh_flags &&& SHF_EXECINSTR ≠ 0 ∧
       s.shdr.sh_flags &&& SHF_WRITE = 0 ∧
       s.shdr.sh_type ≠ SHT_NOBITS ∧
       ¬(s.shdr.sh_type = SHT_INIT_ARRAY ∨ s.name = ".init") ∧
       ¬(s.shdr.sh_type = SHT_FINI_ARRAY ∨ s.name = ".fini") ∧
       is_c_identifier s.name = false) := by
  simp only [is_eligible, Bool.and_eq_true, Bool.not_eq_true', bne_iff_ne,
    bne_eq_false_iff_eq, Bool.or_eq_false_iff, beq_iff_eq, beq_eq_false_iff_ne,
    ne_eq, not_or]
  tauto

lemma secOf_classify (st : LinkState) (k : Nat) (hk : k < st.secs.length) :
    secOf (classify st) k =
      (if consideredB st k && is_eligible (secOf st k) then
        if is_leaf (secOf st k) then { secOf st k with icf_leaf := true }
        else { secOf st k with icf_eligible := true }
      else secOf st k) := by
  unfold secOf classify
  simp only [List.getD_eq_getElem?_getD]
  rw [List.getElem?_mapIdx]
  simp [hk, List.getElem?_eq_getElem hk]

/-- C8: an input section is considered for ICF (tagged leaf or eligible
by the classification pass) iff it is allocatable, executable, not
writable, not BSS, not .init/.fini (including SHT_INIT_ARRAY and
SHT_FINI_ARRAY types), and its name is not a valid C identifier. -/
theorem considered_for_icf_iff (st : LinkState) (k : Nat)
    (hk : k < st.secs.length)
    (h1 : (secOf st k).icf_leaf = false)
    (h2 : (secOf st k).icf_eligible = false)
    (hc : consideredB st k = true) :
    ((secOf (classify st) k).icf_leaf = true ∨
      (secOf (classify st) k).icf_eligible = true) ↔
      ((secOf st k).shdr.sh_flags &&& SHF_ALLOC ≠ 0 ∧
       (secOf st k).shdr.sh_flags &&& SHF_EXECINSTR ≠ 0 ∧
       (secOf st k).shdr.sh_flags &&& SHF_WRITE = 0 ∧
       (secOf st k).shdr.sh_type ≠ SHT_NOBITS ∧
       ¬((secOf st k).shdr.sh_type = SHT_INIT_ARRAY ∨ (secOf st k).name = ".init") ∧
       ¬((secOf st k).shdr.sh_type = SHT_FINI_ARRAY ∨ (secOf st k).name = ".fini") ∧
       is_c_identifier (secOf st k).name = false) := by
  rw [← is_eligible_iff]
  rw [secOf_classify st k hk]
  by_cases he : is_eligible (secOf st k) = true
  · simp only [hc, he, Bool.and_self, if_true]
    by_cases hl : is_leaf (secOf st k) = true
    · simp [hl, he]
    · simp only [Bool.not_eq_true] at hl
      simp [hl, he]
  · simp only [Bool.not_eq_true] at he
    simp [hc, he, h1, h2]

/-- Concrete section record used by several witness states: eligible,
executable, read-only, with no relocations. -/
def wSec : InputSection :=
  { shdr := { sh_flags := 6, sh_type := 1 }
    name := ".text.f"
    contents := [1, 2, 3]
    rels := []
    has_fragments := []
    rel_fragments := []
    fdes := []
    fileIdx := 0
    priority := 0
    icf_eligible := false
    icf_leaf := false
    icf_idx := 0
    leader := none
    is_dead := false }

/-- Witness state: one object file holding one eligible section. -/
def stW8 : LinkState :=
  { secs := [wSec]
    objs := [{ sections := [some 0], symbols := [] }] }

/-- Witness for C8 at a concrete one-section state. -/
theorem considered_for_icf_iff_witness :
    (((secOf (classify stW8) 0).icf_leaf = true ∨
       (secOf (classify stW8) 0).icf_eligible = true) ↔
      ((secOf stW8 0).shdr.sh_flags &&& SHF_ALLOC ≠ 0 ∧
       (secOf stW8 0).shdr.sh_flags &&& SHF_EXECINSTR ≠ 0 ∧
       (secOf stW8 0).shdr.sh_flags &&& SHF_WRITE = 0 ∧
       (secOf stW8 0).shdr.sh_type ≠ SHT_NOBITS ∧
       ¬((secOf stW8 0).shdr.sh_type = SHT_INIT_ARRAY ∨ (secOf stW8 0).name = ".init") ∧
       ¬((secOf stW8 0).shdr.sh_type = SHT_FINI_ARRAY ∨ (secOf stW8 0).name = ".fini") ∧
       is_c_identifier (secOf stW8 0).name = false)) :=
  considered_for_icf_iff stW8 0 (by decide) (by decide) (by decide) (by decide)

lemma getD_eq_get {α : Type _} (l : List α) (i : Nat) (d : α) (h : i < l.length) :
    l.getD i d = l[i] := by
  simp [List.getD_eq_getElem?_getD, List.getElem?_eq_getElem h]

/-! ## Priority assignment (src/main.cc) -/

/-- A file as seen by the priority-assignment loop of main. -/
structure MainFile where
  is_in_archive : Bool
  priority : Nat
deriving DecidableEq, Inhabited

/-- Embedding of the priority loop of main (main.cc lines 140-141):
files[i]->priority = files[i]->is_in_archive() ? i + (1 << 31) : i.
The width of the priority field is declared outside src/; following the
spec (archive members sort after non-archive files) the arithmetic is
modelled exactly, with 1 << 31 = 2 ^ 31. -/
def set_priorities (files : List MainFile) : List MainFile :=
  files.mapIdx fun i f =>
    { f with priority := if f.is_in_archive then i + 2 ^ 31 else i }

/-- C9: every archive member's priority is strictly greater than every
non-archive file's priority, given that the load-order index fits in the
32-bit int used by the loop. -/
theorem archive_members_sort_after (files : List MainFile) (ia ib : Nat)
    (hia : ia < files.length) (hib : ib < files.length)
    (hlen : files.length ≤ 2 ^ 31)
    (ha : (files.getD ia default).is_in_archive = true)
    (hb : (files.getD ib default).is_in_archive = false) :
    ((set_priorities files).getD ib default).priority <
      ((set_priorities files).getD ia default).priority := by
  have hia' : ia < (set_priorities files).length := by
    simpa [set_priorities] using hia
  have hib' : ib < (set_priorities files).length := by
    simpa [set_priorities] using hib
  rw [getD_eq_get _ _ _ hia', getD_eq_get _ _ _ hib']
  rw [getD_eq_get _ _ _ hia] at ha
  rw [getD_eq_get _ _ _ hib] at hb
  simp [set_priorities, List.getElem_mapIdx, ha, hb]
  omega

/-- Witness for C9: a non-archive file followed by an archive member. -/
theorem archive_members_sort_after_witness :
    ((set_priorities [⟨false, 0⟩, ⟨true, 0⟩]).getD 0 default).priority <
      ((set_priorities [⟨false, 0⟩, ⟨true, 0⟩]).getD 1 default).priority :=
  archive_members_sort_after [⟨false, 0⟩, ⟨true, 0⟩] 1 0
    (by decide) (by decide) (by norm_num) (by decide) (by decide)

/-! ## Commit: symbol redirection and retirement (icf.cc lines 398-407) -/

/-- Redirection of one symbol: if its referent section has a leader other
than itself, the symbol's section pointer is rewritten to the leader
(icf.cc lines 400-404, reading the pre-commit state). -/
def redirect_sym (st : LinkState) (sym : Symbol) : Symbol :=
  match sym.input_section with
  | some k =>
    match (secOf st k).leader with
    | some ld => if ld ≠ k then { sym with input_section := some ld } else sym
    | none => sym
  | none => sym

/-- Whether section k was folded: leader set and different from itself. -/
def foldedB (st : LinkState) (k : Nat) : Bool :=
  match (secOf st k).leader with
  | some ld => ld != k
  | none => false

/-- Whether some symbol of some file points at section k. -/
def referencedB (st : LinkState) (k : Nat) : Bool :=
  st.objs.any fun f => f.symbols.any fun s => s.input_section == some k

/-- Embedding of the commit loop (icf.cc lines 398-407): every file's
every symbol is redirected, and isec->kill() runs exactly on the folded
sections reached through some symbol.  The parallel_for_each writes
disjoint symbols and stores is_dead idempotently, so it is modelled as a
simultaneous update. -/
def commit (st : LinkState) : LinkState :=
  { st with
    objs := st.objs.map fun f => { f with symbols := f.symbols.map (redirect_sym st) }
    secs := st.secs.mapIdx fun k s =>
      if foldedB st k && referencedB st k then { s with is_dead := true } else s }

/-- C3 counterexample input: section 0 is folded into section 1, but no
symbol references section 0. -/
def stC3 : LinkState :=
  { secs := [{ wSec with leader := some 1 }, wSec]
    objs := [] }

/-- C3 counterexample: a folded non-survivor section that no symbol
references is not marked dead by commit, refuting the claim that every
folded non-survivor section is marked dead. -/
theorem commit_kill_counterexample :
    (secOf stC3 0).leader = some 1 ∧
      (secOf (commit stC3) 0).leader = some 1 ∧
      (secOf (commit stC3) 0).is_dead = false := by decide

/-- C3 as amended: after commit, every symbol whose referent section was
folded (leader set and different from the section itself) is redirected
to the leader, and every folded non-survivor section that is referenced
by at least one symbol is marked dead. -/
theorem commit_redirects_and_kills (st : LinkState) (fi si k ld : Nat)
    (hfi : fi < st.objs.length)
    (hsi : si < (st.objs.getD fi default).symbols.length)
    (hk : k < st.secs.length)
    (hsym : ((st.objs.getD fi default).symbols.getD si default).input_section = some k)
    (hld : (secOf st k).leader = some ld) (hne : ld ≠ k) :
    (((commit st).objs.getD fi default).symbols.getD si default).input_section = some ld ∧
      (secOf (commit st) k).is_dead = true := by
  rw [getD_eq_get _ _ _ hfi] at hsi hsym
  rw [getD_eq_get _ _ _ hsi] at hsym
  constructor
  · have hfi' : fi < ((commit st).objs).length := by simp [commit, hfi]
    have hsi' : si < (((commit st).objs)[fi]).symbols.length := by
      simp [commit, hsi]
    rw [getD_eq_get _ _ _ hfi', getD_eq_get _ _ _ hsi']
    simp only [commit, List.getElem_map]
    simp [redirect_sym, hsym, hld, hne]
  · have hfold : foldedB st k = true := by
      unfold foldedB
      rw [hld]
      simpa using hne
    have href : referencedB st k = true := by
      unfold referencedB
      rw [List.any_eq_true]
      refine ⟨st.objs[fi], List.getElem_mem hfi, ?_⟩
      rw [List.any_eq_true]
      refine ⟨st.objs[fi].symbols[si], List.getElem_mem hsi, ?_⟩
      simp [hsym]
    have hk' : k < ((commit st).secs).length := by simp [commit, hk]
    unfold secOf
    rw [getD_eq_get _ _ _ hk']
    simp only [commit, List.getElem_mapIdx, hfold, href, Bool.and_self, if_true]

/-- Witness state for C3: one file whose single symbol points at folded
section 0, whose leader is section 1. -/
def stW3 : LinkState :=
  { secs := [{ wSec with leader := some 1 }, wSec]
    objs := [{ sections := [some 0, some 1]
               symbols := [{ frag := none, input_section := some 0, value := 0 }] }] }

/-- Witness for C3 as amended at a concrete two-section state. -/
theorem commit_redirects_and_kills_witness :
    (((commit stW3).objs.getD 0 default).symbols.getD 0 default).input_section = some 1 ∧
      (secOf (commit stW3) 0).is_dead = true :=
  commit_redirects_and_kills stW3 0 0 0 1
    (by decide) (by decide) (by decide) (by decide) (by decide) (by decide)

/-! ## Class commit: sort by digest and elect leaders (icf.cc lines 377-393) -/

/-- Write a leader pointer into the arena. -/
def setLeader (st : LinkState) (k : Nat) (v : Option Nat) : LinkState :=
  { st with secs := st.secs.set k { st.secs.getD k default with leader := v } }

/-- Embedding of the inner while loop (icf.cc lines 388-391): starting
after a class boundary, successive sections whose digest equals the
boundary section's digest point their leader at the boundary section. -/
def assignFollowers {α : Type} [DecidableEq α] (dg : Nat → α) (ld : Nat) :
    List Nat → LinkState → LinkState
  | [], st => st
  | s :: rest, st =>
    if dg ld = dg s then assignFollowers dg ld rest (setLeader st s (some ld))
    else st

/-- Embedding of one index of the class-boundary parallel_for (icf.cc
lines 384-393): index i is a boundary iff i = 0 or its digest differs
from its left neighbour's; a boundary section becomes its own leader and
captures the following run. -/
def assignRun {α : Type} [DecidableEq α] (dg : Nat → α) (sorted : List Nat)
    (st : LinkState) (i : Nat) : LinkState :=
  if i = 0 ∨ dg (sorted.getD (i - 1) 0) ≠ dg (sorted.getD i 0) then
    let ld := sorted.getD i 0
    assignFollowers dg ld (sorted.drop (i + 1)) (setLeader st ld (some ld))
  else st

/-- Embedding of the class-commit dispatch (icf.cc line 384): the
parallel_for runs over indices [0, sections.size() - 1).  Distinct
boundary indices write disjoint leader runs and never read leaders, so
the parallel dispatch is modelled as a left fold over the index range. -/
def mergeLoop {α : Type} [DecidableEq α] (dg : Nat → α) (sorted : List Nat)
    (st : LinkState) : LinkState :=
  (List.range (sorted.length - 1)).foldl (assignRun dg sorted) st

/-- Digest assignment for the C1 failing input: sections 0 and 1 share a
digest, section 2 has a unique (larger) digest. -/
def dgC1 : Nat → Nat := fun s => if s == 2 then 1 else 0

/-- C1 failing input: three participant sections whose sorted digest
sequence is 0, 0, 1. -/
def stC1 : LinkState :=
  { secs := [wSec, wSec, wSec], objs := [] }

/-- C1: on the failing input the section order [0, 1, 2] is sorted by
(digest, priority), sections 0 and 1 obtain leader 0, but the last
section, alone in its digest class, never gets a leader: the dispatch
over [0, N-1) skips the boundary at the last index, refuting the claim
that every section passing the eligibility filter ends with a non-null
leader. -/
theorem merge_skips_last_singleton_class :
    List.Pairwise (fun a b =>
      dgC1 a < dgC1 b ∨ (dgC1 a = dgC1 b ∧
        (secOf stC1 a).priority ≤ (secOf stC1 b).priority)) [0, 1, 2] ∧
      (secOf (mergeLoop dgC1 [0, 1, 2] stC1) 0).leader = some 0 ∧
      (secOf (mergeLoop dgC1 [0, 1, 2] stC1) 1).leader = some 0 ∧
      (secOf (mergeLoop dgC1 [0, 1, 2] stC1) 2).leader = none := by decide

/-! ## Gathering participants and edges (icf.cc lines 150-232) -/

/-- Modulus of size_t arithmetic, 2^64 (written as a literal so the
kernel computes with it directly). -/
def SIZE_T_MOD : Nat := 18446744073709551616

/-- The loop bound that the prefix-sum loops compute in size_t
arithmetic: vector size minus one, underflowing to 2^64 - 1 when the
vector is empty. -/
def cppLoopBound (n : Nat) : Nat := (n + SIZE_T_MOD - 1) % SIZE_T_MOD

/-- Embedding of the exclusive-prefix-sum loops (icf.cc lines 163-164
and 214-215): for i in [0, cppLoopBound length) the loop executes
si[i+1] = si[i] + ns[i] on a zero-initialised vector of the same length
as ns.  The loop is total iff every access is in bounds (the write needs
i + 1 < length), in which case entry j holds the sum of ns[0..j); an
out-of-bounds access is undefined behaviour, modelled as none. -/
def prefixSums (ns : List Nat) : Option (List Nat) :=
  if ∀ i, i < cppLoopBound ns.length → i + 1 < ns.length then
    some ((List.range ns.length).map fun j => (ns.take j).sum)
  else none

/-- Sequential bounds-checked indexed writes into a value-initialised
vector (the fill loops write dest[idx++]; the Option entries model the
null default of a pointer vector, and an out-of-bounds write is
undefined behaviour, modelled as none). -/
def fillWrites (α : Type) (size : Nat) (writes : List (Nat × α)) :
    Option (List (Option α)) :=
  writes.foldl
    (fun acc w => acc.bind fun l =>
      if w.1 < l.length then some (l.set w.1 (some w.2)) else none)
    (some (List.replicate size none))

/-- Per-file list of the icf_eligible sections in order; the count pass
and the fill pass of gather_sections traverse exactly this sequence
(icf.cc lines 156-174). -/
def eligSecsOf (st : LinkState) (f : ObjectFile) : List Nat :=
  f.sections.filterMap fun o =>
    match o with
    | some k => if (secOf st k).icf_eligible then some k else none
    | none => none

/-- Embedding of gather_sections (icf.cc lines 150-181): count eligible
sections per file, prefix-sum the counts (with the i64/size_t loop bound
hazard), take section_indices.back() + num_sections.back() (undefined on
empty vectors, modelled through getLast?), and fill the flat vector.
The final pass assigning icf_idx is not modelled; the class-commit model
takes the digest assignment as a function. -/
def gather_sections (st : LinkState) : Option (List (Option Nat)) :=
  (prefixSums (st.objs.map fun f => (eligSecsOf st f).length)).bind fun si =>
    (si.getLast?).bind fun a =>
      ((st.objs.map fun f => (eligSecsOf st f).length).getLast?).bind fun b =>
        fillWrites Nat (a + b)
          ((st.objs.zip si).flatMap fun p =>
            (eligSecsOf st p.1).enum.map fun q => (p.2 + q.1, q.2))

/-- Targets of section k's outgoing ICF edges in relocation order: the
count and fill loops of gather_edges share this condition (icf.cc lines
204-211 and 223-229): non-fragment relocations whose symbol resolves to
an icf_eligible section contribute that section's icf_idx. -/
def edgeTargets (st : LinkState) (k : Nat) : List Nat :=
  ((secOf st k).rels.zip (secOf st k).has_fragments).filterMap fun p =>
    if p.2 then none
    else
      match ((st.objs.getD (secOf st k).fileIdx default).symbols.getD p.1.r_sym default) with
      | sym =>
        match sym.frag, sym.input_section with
        | none, some t =>
          if (secOf st t).icf_eligible then some (secOf st t).icf_idx else none
        | _, _ => none

/-- Embedding of gather_edges (icf.cc lines 193-232): count each
section's outgoing edges, prefix-sum the counts (the loop bound
num_edges.size() - 1 underflows in size_t when sections is empty), size
the edge array by edge_indices.back() + num_edges.back(), and fill it. -/
def gather_edges (st : LinkState) (sections : List Nat) :
    Option (List (Option Nat) × List Nat) :=
  (prefixSums (sections.map fun k => (edgeTargets st k).length)).bind fun ei =>
    (ei.getLast?).bind fun a =>
      ((sections.map fun k => (edgeTargets st k).length).getLast?).bind fun b =>
        (fillWrites Nat (a + b)
          ((sections.zip ei).flatMap fun p =>
            (edgeTargets st p.1).enum.map fun q => (p.2 + q.1, q.2))).bind fun edges =>
          some (edges, ei)

lemma prefixSums_nil : prefixSums [] = none := by
  have hnc : ¬ ∀ i, i < cppLoopBound (List.length ([] : List Nat)) →
      i + 1 < List.length ([] : List Nat) := by
    intro H
    have h1 : (0 : Nat) < cppLoopBound 0 := by decide
    have h2 := H 0 (by simpa using h1)
    simp at h2
  unfold prefixSums
  exact if_neg hnc

/-- State with one object file and no sections: the participant set is
empty. -/
def stA10 : LinkState :=
  { secs := [], objs := [{ sections := [], symbols := [] }] }

/-- C10: with no object files, gather_sections hits the size_t underflow
of the prefix loop bound and the back() calls on empty vectors (none);
with one object file and an empty participant set, gather_sections is
fine but gather_edges on zero sections hits the same underflow of
num_edges.size() - 1 and goes out of bounds (none). -/
theorem gather_totality_precondition :
    gather_sections { secs := [], objs := [] } = none ∧
      gather_sections stA10 = some [] ∧
      gather_edges stA10 [] = none := by
  refine ⟨?_, ?_, ?_⟩
  · unfold gather_sections
    rw [List.map_nil, prefixSums_nil]
    rfl
  · have h1 : prefixSums [0] = some [0] := by
      unfold prefixSums
      rw [if_pos]
      · rfl
      · intro i hi
        have hb : cppLoopBound ([0] : List Nat).length = 0 := by decide
        omega
    unfold gather_sections
    have h2 : (List.map (fun f => (eligSecsOf stA10 f).length) stA10.objs) = [0] := rfl
    rw [h2, h1]
    rfl
  · unfold gather_edges
    rw [List.map_nil, prefixSums_nil]
    rfl

/-! ## Leaf deduplication (icf.cc lines 49-74 and 309-340) -/

/-- Embedding of LeafEq (icf.cc lines 60-74): byte-equal contents, equal
FDE count, and for each FDE equal length and equal bytes after the first
8 (which hold the record length and the CIE back-offset). -/
def leafEq (a b : InputSection) : Bool :=
  a.contents == b.contents &&
  a.fdes.length == b.fdes.length &&
  (List.range a.fdes.length).all fun i =>
    ((a.fdes.getD i default).contents.length == (b.fdes.getD i default).contents.length) &&
    ((a.fdes.getD i default).contents.drop 8 == (b.fdes.getD i default).contents.drop 8)

lemma leafEq_iff (a b : InputSection) :
    leafEq a b = true ↔
      (a.contents = b.contents ∧ a.fdes.length = b.fdes.length ∧
        ∀ i < a.fdes.length,
          (a.fdes.getD i default).contents.length =
            (b.fdes.getD i default).contents.length ∧
          (a.fdes.getD i default).contents.drop 8 =
            (b.fdes.getD i default).contents.drop 8) := by
  simp [leafEq, List.all_eq_true, List.mem_range]
  tauto

lemma leafEq_refl (a : InputSection) : leafEq a a = true := by
  rw [leafEq_iff]
  exact ⟨rfl, rfl, fun i _ => ⟨rfl, rfl⟩⟩

lemma leafEq_symm {a b : InputSection} (h : leafEq a b = true) : leafEq b a = true := by
  rw [leafEq_iff] at h ⊢
  obtain ⟨h1, h2, h3⟩ := h
  refine ⟨h1.symm, h2.symm, fun i hi => ?_⟩
  obtain ⟨g1, g2⟩ := h3 i (by omega)
  exact ⟨g1.symm, g2.symm⟩

lemma leafEq_trans {a b c : InputSection} (hab : leafEq a b = true)
    (hbc : leafEq b c = true) : leafEq a c = true := by
  rw [leafEq_iff] at hab hbc ⊢
  obtain ⟨h1, h2, h3⟩ := hab
  obtain ⟨g1, g2, g3⟩ := hbc
  refine ⟨h1.trans g1, h2.trans g2, fun i hi => ?_⟩
  obtain ⟨p1, p2⟩ := h3 i hi
  obtain ⟨q1, q2⟩ := g3 i (by omega)
  exact ⟨p1.trans q1, p2.trans q2⟩

/-- Insertion of one leaf into the deduplication map (icf.cc lines
320-323): an insertion colliding with an incumbent representative of the
same LeafEq class keeps the lower-priority section.  The concurrent hash
map is modelled as the list of current representatives, one per LeafEq
class, scanned in order; the update is a monotone min on priority, so any
interleaving of the parallel insertions produces this result. -/
def leafInsert (st : LinkState) : List Nat → Nat → List Nat
  | [], k => [k]
  | e :: m, k =>
    if leafEq (secOf st e) (secOf st k) then
      if (secOf st k).priority < (secOf st e).priority then k :: m else e :: m
    else e :: leafInsert st m k

/-- The eligible leaf sections in file-then-section order: exactly the
sections that pass 1 inserts into the leaf map (icf.cc lines 314-328). -/
def eligibleLeaves (st : LinkState) : List Nat :=
  st.objs.flatMap fun f =>
    f.sections.filterMap fun o =>
      o.bind fun k =>
        if is_eligible (secOf st k) && is_leaf (secOf st k) then some k else none

/-- The leaf deduplication map after all insertions. -/
def leafMap (st : LinkState) : List Nat :=
  (eligibleLeaves st).foldl (leafInsert st) []

/-- The LeafEq lookup predicate of map.find: does entry e key-match the
query section x. -/
def leafMatch (st : LinkState) (x : Nat) : Nat → Bool :=
  fun e => leafEq (secOf st e) (secOf st x)

/-- The representative map.find returns for section k in pass 2
(icf.cc lines 335-337). -/
def leafLeaderOf (st : LinkState) (k : Nat) : Option Nat :=
  (leafMap st).find? (leafMatch st k)

/-- Pass 2 of the leaf phase (icf.cc lines 330-339): every section
tagged icf_leaf takes the map's representative as its leader. -/
def assignLeafLeaders (st : LinkState) : LinkState :=
  { st with
    secs := st.secs.mapIdx fun k s =>
      if consideredB st k && s.icf_leaf then { s with leader := leafLeaderOf st k }
      else s }

/-- The whole leaf phase of icf_sections (icf.cc lines 309-340). -/
def leafPhase (st : LinkState) : LinkState :=
  assignLeafLeaders (classify st)

lemma leafInsert_mem (st : LinkState) {m : List Nat} {k x : Nat}
    (h : x ∈ leafInsert st m k) : x ∈ m ∨ x = k := by
  induction m with
  | nil =>
    simp [leafInsert] at h
    exact Or.inr h
  | cons e m ih =>
    unfold leafInsert at h
    by_cases hek : leafEq (secOf st e) (secOf st k) = true
    · rw [if_pos hek] at h
      by_cases hp : (secOf st k).priority < (secOf st e).priority
      · rw [if_pos hp] at h
        rcases List.mem_cons.mp h with h | h
        · exact Or.inr h
        · exact Or.inl (List.mem_cons_of_mem _ h)
      · rw [if_neg hp] at h
        exact Or.inl h
    · rw [if_neg (by simpa using hek)] at h
      rcases List.mem_cons.mp h with h | h
      · exact Or.inl (by simp [h])
      · rcases ih h with h | h
        · exact Or.inl (List.mem_cons_of_mem _ h)
        · exact Or.inr h

lemma leafInsert_pairwise (st : LinkState) {m : List Nat} (k : Nat)
    (h : m.Pairwise fun e1 e2 => leafEq (secOf st e1) (secOf st e2) = false) :
    (leafInsert st m k).Pairwise
      fun e1 e2 => leafEq (secOf st e1) (secOf st e2) = false := by
  induction m with
  | nil => simp [leafInsert]
  | cons e m ih =>
    rw [List.pairwise_cons] at h
    obtain ⟨he, hm⟩ := h
    unfold leafInsert
    by_cases hek : leafEq (secOf st e) (secOf st k) = true
    · rw [if_pos hek]
      by_cases hp : (secOf st k).priority < (secOf st e).priority
      · rw [if_pos hp, List.pairwise_cons]
        refine ⟨fun f hf => ?_, hm⟩
        by_contra hkf
        rw [Bool.not_eq_false] at hkf
        exact absurd (leafEq_trans hek hkf) (by simp [he f hf])
      · rw [if_neg hp, List.pairwise_cons]
        exact ⟨he, hm⟩
    · rw [if_neg (by simpa using hek), List.pairwise_cons]
      refine ⟨fun f hf => ?_, ih hm⟩
      rcases leafInsert_mem st hf with h | h
      · exact he f h
      · rw [h]
        simpa using hek

lemma find?_ext {α : Type _} (p q : α → Bool) (l : List α)
    (h : ∀ x ∈ l, p x = q x) : l.find? p = l.find? q := by
  induction l with
  | nil => rfl
  | cons a l ih =>
    have ha := h a (by simp)
    by_cases hpa : p a = true
    · rw [List.find?_cons_of_pos _ hpa, List.find?_cons_of_pos _ (ha ▸ hpa)]
    · rw [List.find?_cons_of_neg _ (by simpa using hpa),
        List.find?_cons_of_neg _ (by simp [← ha]; simpa using hpa)]
      exact ih fun x hx => h x (by simp [hx])

lemma find?_cons_pos {α : Type _} (p : α → Bool) (a : α) (l : List α)
    (h : p a = true) : (a :: l).find? p = some a :=
  List.find?_cons_of_pos l h

lemma find?_cons_neg {α : Type _} (p : α → Bool) (a : α) (l : List α)
    (h : p a = false) : (a :: l).find? p = l.find? p :=
  List.find?_cons_of_neg l (by simp [h])

lemma leafMatch_eq (st : LinkState) (x e : Nat) :
    leafMatch st x e = leafEq (secOf st e) (secOf st x) := rfl

lemma leafInsert_find?_of_not (st : LinkState) {m : List Nat} {k x : Nat}
    (hkx : leafEq (secOf st k) (secOf st x) = false) :
    (leafInsert st m k).find? (leafMatch st x) = m.find? (leafMatch st x) := by
  induction m with
  | nil =>
    simp only [leafInsert]
    rw [find?_cons_neg (leafMatch st x) k [] hkx, List.find?_nil]
  | cons e m ih =>
    unfold leafInsert
    by_cases hek : leafEq (secOf st e) (secOf st k) = true
    · rw [if_pos hek]
      have hex : leafEq (secOf st e) (secOf st x) = false := by
        by_contra hc
        rw [Bool.not_eq_false] at hc
        exact absurd (leafEq_trans (leafEq_symm hek) hc) (by simp [hkx])
      by_cases hp : (secOf st k).priority < (secOf st e).priority
      · rw [if_pos hp]
        rw [find?_cons_neg (leafMatch st x) k m hkx,
          find?_cons_neg (leafMatch st x) e m hex]
      · rw [if_neg hp]
    · rw [if_neg (by simpa using hek)]
      by_cases hex : leafMatch st x e = true
      · rw [find?_cons_pos (leafMatch st x) e _ hex,
          find?_cons_pos (leafMatch st x) e m hex]
      · rw [find?_cons_neg (leafMatch st x) e _ (by simpa using hex),
          find?_cons_neg (leafMatch st x) e m (by simpa using hex)]
        exact ih

lemma leafInsert_find?_of_eq (st : LinkState) {m : List Nat} {k x : Nat}
    (hkx : leafEq (secOf st k) (secOf st x) = true) :
    ∃ r, (leafInsert st m k).find? (leafMatch st x) = some r ∧
      leafEq (secOf st r) (secOf st x) = true ∧
      (m.find? (leafMatch st x) = none → r = k) ∧
      (∀ e, m.find? (leafMatch st x) = some e →
        (r = e ∨ r = k) ∧ (secOf st r).priority ≤ (secOf st e).priority ∧
          (secOf st r).priority ≤ (secOf st k).priority) := by
  induction m with
  | nil =>
    refine ⟨k, ?_, hkx, fun _ => rfl, fun e he => by simp at he⟩
    simp only [leafInsert]
    rw [find?_cons_pos (leafMatch st x) k [] hkx]
  | cons e m ih =>
    unfold leafInsert
    by_cases hek : leafEq (secOf st e) (secOf st k) = true
    · rw [if_pos hek]
      have hex : leafEq (secOf st e) (secOf st x) = true :=
        leafEq_trans hek hkx
      by_cases hp : (secOf st k).priority < (secOf st e).priority
      · rw [if_pos hp]
        refine ⟨k, ?_, hkx, fun _ => rfl, fun e0 he0 => ?_⟩
        · rw [find?_cons_pos (leafMatch st x) k m hkx]
        · rw [find?_cons_pos (leafMatch st x) e m hex] at he0
          obtain rfl : e = e0 := by injection he0
          exact ⟨Or.inr rfl, le_of_lt hp, le_refl _⟩
      · rw [if_neg hp]
        refine ⟨e, ?_, hex, fun hn => ?_, fun e0 he0 => ?_⟩
        · rw [find?_cons_pos (leafMatch st x) e m hex]
        · rw [find?_cons_pos (leafMatch st x) e m hex] at hn
          cases hn
        · rw [find?_cons_pos (leafMatch st x) e m hex] at he0
          obtain rfl : e = e0 := by injection he0
          exact ⟨Or.inl rfl, le_refl _, by omega⟩
    · rw [if_neg (by simpa using hek)]
      have hex : leafEq (secOf st e) (secOf st x) = false := by
        by_contra hc
        rw [Bool.not_eq_false] at hc
        exact absurd (leafEq_trans hc (leafEq_symm hkx)) (by simpa using hek)
      obtain ⟨r, hr1, hr2, hr3, hr4⟩ := ih
      refine ⟨r, ?_, hr2, fun hn => ?_, fun e0 he0 => ?_⟩
      · rw [find?_cons_neg (leafMatch st x) e _ hex]
        exact hr1
      · rw [find?_cons_neg (leafMatch st x) e m hex] at hn
        exact hr3 hn
      · rw [find?_cons_neg (leafMatch st x) e m hex] at he0
        exact hr4 e0 he0

lemma leafFold_spec (st : LinkState) (ys : List Nat) :
    ((ys.foldl (leafInsert st) []).Pairwise
        fun e1 e2 => leafEq (secOf st e1) (secOf st e2) = false) ∧
      (∀ e ∈ ys.foldl (leafInsert st) [], e ∈ ys) ∧
      (∀ x, (∀ c ∈ ys, leafEq (secOf st c) (secOf st x) = false) →
        (ys.foldl (leafInsert st) []).find? (leafMatch st x) = none) ∧
      (∀ x c, c ∈ ys → leafEq (secOf st c) (secOf st x) = true →
        ∃ r, (ys.foldl (leafInsert st) []).find? (leafMatch st x) = some r ∧
          r ∈ ys ∧ leafEq (secOf st r) (secOf st x) = true ∧
          ∀ d ∈ ys, leafEq (secOf st d) (secOf st x) = true →
            (secOf st r).priority ≤ (secOf st d).priority) := by
  induction ys using List.reverseRecOn with
  | nil =>
    exact ⟨by simp, by simp, fun x _ => rfl, fun x c hc => absurd hc (by simp)⟩
  | append_singleton ys y ih =>
    obtain ⟨ihP, ihM, ihN, ihS⟩ := ih
    have hM : (ys ++ [y]).foldl (leafInsert st) [] =
        leafInsert st (ys.foldl (leafInsert st) []) y := by
      rw [List.foldl_append]
      rfl
    rw [hM]
    refine ⟨leafInsert_pairwise st y ihP, ?_, ?_, ?_⟩
    · intro e he
      rcases leafInsert_mem st he with h | h
      · exact List.mem_append_left _ (ihM e h)
      · exact h ▸ List.mem_append_right _ (by simp)
    · intro x hx
      have hyx : leafEq (secOf st y) (secOf st x) = false :=
        hx y (List.mem_append_right _ (by simp))
      rw [leafInsert_find?_of_not st hyx]
      exact ihN x fun c hc => hx c (List.mem_append_left _ hc)
    · intro x c hc hcx
      by_cases hyx : leafEq (secOf st y) (secOf st x) = true
      · obtain ⟨r, hr1, hr2, hr3, hr4⟩ :=
          @leafInsert_find?_of_eq st (ys.foldl (leafInsert st) []) y x hyx
        cases hfM : (ys.foldl (leafInsert st) []).find? (leafMatch st x) with
        | none =>
          obtain rfl : r = y := hr3 hfM
          refine ⟨r, hr1, List.mem_append_right _ (by simp), hr2, ?_⟩
          intro d hd hdx
          rcases List.mem_append.mp hd with hd | hd
          · obtain ⟨r', hr', _, _, _⟩ := ihS x d hd hdx
            rw [hfM] at hr'
            cases hr'
          · simp at hd
            subst hd
            exact le_refl _
        | some e =>
          have he_mem : e ∈ ys.foldl (leafInsert st) [] :=
            List.mem_of_find?_eq_some hfM
          obtain ⟨hre, hrp, hrpy⟩ := hr4 e hfM
          refine ⟨r, hr1, ?_, hr2, ?_⟩
          · rcases hre with rfl | rfl
            · exact List.mem_append_left _ (ihM _ he_mem)
            · exact List.mem_append_right _ (by simp)
          · intro d hd hdx
            rcases List.mem_append.mp hd with hd | hd
            · obtain ⟨r', hr', _, _, hmin'⟩ := ihS x d hd hdx
              rw [hfM] at hr'
              obtain rfl : e = r' := by injection hr'
              exact le_trans hrp (hmin' d hd hdx)
            · simp at hd
              subst hd
              exact hrpy
      · rw [leafInsert_find?_of_not st (by simpa using hyx)]
        rcases List.mem_append.mp hc with hc' | hc'
        · obtain ⟨r, hr1, hrm, hr2, hmin⟩ := ihS x c hc' hcx
          refine ⟨r, hr1, List.mem_append_left _ hrm, hr2, ?_⟩
          intro d hd hdx
          rcases List.mem_append.mp hd with hd | hd
          · exact hmin d hd hdx
          · simp at hd
            subst hd
            exact absurd hdx (by simpa using hyx)
        · simp at hc'
          subst hc'
          exact absurd hcx (by simpa using hyx)

lemma mem_eligibleLeaves (st : LinkState) (k : Nat) :
    k ∈ eligibleLeaves st ↔
      consideredB st k = true ∧ is_eligible (secOf st k) = true ∧
        is_leaf (secOf st k) = true := by
  simp only [eligibleLeaves, consideredB, List.mem_flatMap, List.any_eq_true,
    List.mem_filterMap, beq_iff_eq]
  constructor
  · rintro ⟨f, hf, o, ho, hok⟩
    match o with
    | none => simp at hok
    | some j =>
      rw [Option.some_bind] at hok
      by_cases hcond : (is_eligible (secOf st j) && is_leaf (secOf st j)) = true
      · rw [if_pos hcond] at hok
        obtain rfl : j = k := by injection hok
        rw [Bool.and_eq_true] at hcond
        exact ⟨⟨f, hf, some j, ho, rfl⟩, hcond.1, hcond.2⟩
      · rw [if_neg hcond] at hok
        cases hok
  · rintro ⟨⟨f, hf, o, ho, hok⟩, he, hl⟩
    subst hok
    exact ⟨f, hf, some k, ho, by simp [he, hl]⟩

lemma leafLeaderOf_mem_spec (st : LinkState) (a : Nat)
    (ha : a ∈ eligibleLeaves st) :
    ∃ r, leafLeaderOf st a = some r ∧ r ∈ eligibleLeaves st ∧
      leafEq (secOf st r) (secOf st a) = true ∧
      ∀ d ∈ eligibleLeaves st, leafEq (secOf st d) (secOf st a) = true →
        (secOf st r).priority ≤ (secOf st d).priority :=
  (leafFold_spec st (eligibleLeaves st)).2.2.2 a a ha (leafEq_refl _)

lemma leafLeaderOf_eq_iff (st : LinkState) (a b : Nat)
    (ha : a ∈ eligibleLeaves st) (hb : b ∈ eligibleLeaves st) :
    leafLeaderOf st a = leafLeaderOf st b ↔
      leafEq (secOf st a) (secOf st b) = true := by
  obtain ⟨ra, hra, _, hrax, _⟩ := leafLeaderOf_mem_spec st a ha
  obtain ⟨rb, hrb, _, hrbx, _⟩ := leafLeaderOf_mem_spec st b hb
  constructor
  · intro h
    rw [hra, hrb] at h
    obtain rfl : ra = rb := by injection h
    exact leafEq_trans (leafEq_symm hrax) hrbx
  · intro h
    unfold leafLeaderOf
    apply find?_ext
    intro e _
    rw [leafMatch_eq, leafMatch_eq]
    by_cases hea : leafEq (secOf st e) (secOf st a) = true
    · rw [hea, leafEq_trans hea h]
    · rw [Bool.not_eq_true] at hea
      rw [hea]
      by_contra hc
      have heb : leafEq (secOf st e) (secOf st b) = true := by
        cases hh : leafEq (secOf st e) (secOf st b)
        · rw [hh] at hc
          exact absurd rfl hc
        · rfl
      exact absurd (leafEq_trans heb (leafEq_symm h)) (by simp [hea])

lemma secOf_classify_fields (st : LinkState) (k : Nat) :
    (secOf (classify st) k).shdr = (secOf st k).shdr ∧
      (secOf (classify st) k).name = (secOf st k).name ∧
      (secOf (classify st) k).contents = (secOf st k).contents ∧
      (secOf (classify st) k).rels = (secOf st k).rels ∧
      (secOf (classify st) k).fdes = (secOf st k).fdes ∧
      (secOf (classify st) k).priority = (secOf st k).priority := by
  by_cases hk : k < st.secs.length
  · rw [secOf_classify st k hk]
    by_cases h1 : (consideredB st k && is_eligible (secOf st k)) = true
    · rw [if_pos h1]
      by_cases h2 : is_leaf (secOf st k) = true
      · rw [if_pos h2]
        exact ⟨rfl, rfl, rfl, rfl, rfl, rfl⟩
      · rw [if_neg h2]
        exact ⟨rfl, rfl, rfl, rfl, rfl, rfl⟩
    · rw [if_neg h1]
      exact ⟨rfl, rfl, rfl, rfl, rfl, rfl⟩
  · have h1 : secOf (classify st) k = default := by
      unfold secOf classify
      simp only [List.getD_eq_getElem?_getD]
      rw [List.getElem?_eq_none (by simpa using (by omega : st.secs.length ≤ k))]
      rfl
    have h2 : secOf st k = default := by
      unfold secOf
      simp only [List.getD_eq_getElem?_getD]
      rw [List.getElem?_eq_none (by omega)]
      rfl
    rw [h1, h2]
    exact ⟨rfl, rfl, rfl, rfl, rfl, rfl⟩

lemma leafEq_classify (st : LinkState) (e k : Nat) :
    leafEq (secOf (classify st) e) (secOf (classify st) k) =
      leafEq (secOf st e) (secOf st k) := by
  obtain ⟨_, _, hc1, _, hf1, _⟩ := secOf_classify_fields st e
  obtain ⟨_, _, hc2, _, hf2, _⟩ := secOf_classify_fields st k
  unfold leafEq
  rw [hc1, hc2, hf1, hf2]

lemma is_eligible_classify (st : LinkState) (k : Nat) :
    is_eligible (secOf (classify st) k) = is_eligible (secOf st k) := by
  obtain ⟨hs, hn, _, _, _, _⟩ := secOf_classify_fields st k
  unfold is_eligible
  rw [hs, hn]

lemma is_leaf_classify (st : LinkState) (k : Nat) :
    is_leaf (secOf (classify st) k) = is_leaf (secOf st k) := by
  obtain ⟨_, _, _, hr, hf, _⟩ := secOf_classify_fields st k
  unfold is_leaf
  rw [hr, hf]

lemma priority_classify (st : LinkState) (k : Nat) :
    (secOf (classify st) k).priority = (secOf st k).priority :=
  (secOf_classify_fields st k).2.2.2.2.2

lemma eligibleLeaves_classify (st : LinkState) :
    eligibleLeaves (classify st) = eligibleLeaves st := by
  unfold eligibleLeaves
  have hobjs : (classify st).objs = st.objs := rfl
  rw [hobjs]
  congr 1
  funext f
  congr 1
  funext o
  match o with
  | none => rfl
  | some j =>
    simp only [Option.some_bind]
    rw [is_eligible_classify, is_leaf_classify]

lemma leafInsert_classify (st : LinkState) :
    leafInsert (classify st) = leafInsert st := by
  funext m k
  induction m with
  | nil => rfl
  | cons e m ih =>
    simp only [leafInsert, leafEq_classify, priority_classify, ih]

lemma leafLeaderOf_classify (st : LinkState) (k : Nat) :
    leafLeaderOf (classify st) k = leafLeaderOf st k := by
  unfold leafLeaderOf leafMap
  rw [eligibleLeaves_classify, leafInsert_classify]
  apply find?_ext
  intro e _
  rw [leafMatch_eq, leafMatch_eq, leafEq_classify]

/-- Full description of an eligible leaf section after the leaf phase:
icf_leaf is set and the leader comes from the deduplication map; all
other fields are unchanged. -/
lemma secOf_leafPhase_of_leaf (st : LinkState) (a : Nat)
    (ha : a < st.secs.length) (hca : consideredB st a = true)
    (hea : is_eligible (secOf st a) = true) (hla : is_leaf (secOf st a) = true) :
    secOf (leafPhase st) a =
      { { secOf st a with icf_leaf := true } with leader := leafLeaderOf st a } := by
  have hcls : secOf (classify st) a = { secOf st a with icf_leaf := true } := by
    rw [secOf_classify st a ha, if_pos (by simp [hca, hea]), if_pos hla]
  have ha' : a < (classify st).secs.length := by
    simpa [classify] using ha
  have hget : (classify st).secs[a] = secOf (classify st) a := by
    unfold secOf
    simp [List.getD_eq_getElem?_getD, List.getElem?_eq_getElem ha']
  have hcons : consideredB (classify st) a = true := hca
  have hlen : a < (leafPhase st).secs.length := by
    simp [leafPhase, assignLeafLeaders, classify, ha]
  show (leafPhase st).secs.getD a default = _
  rw [getD_eq_get _ _ _ hlen]
  show (List.mapIdx (fun k s =>
      if consideredB (classify st) k && s.icf_leaf then
        { s with leader := leafLeaderOf (classify st) k } else s)
      (classify st).secs)[a] = _
  rw [List.getElem_mapIdx]
  rw [hget, hcls]
  rw [if_pos (by simp [hcons])]
  rw [leafLeaderOf_classify]

lemma fillWrites_none_foldl {α : Type _} (writes : List (Nat × α)) :
    writes.foldl
      (fun (acc : Option (List (Option α))) (w : Nat × α) =>
        acc.bind fun (l : List (Option α)) =>
          if w.1 < l.length then some (l.set w.1 (some w.2)) else none)
      none = none := by
  induction writes with
  | nil => rfl
  | cons w ws ih =>
    simp only [List.foldl_cons, Option.none_bind]
    exact ih

lemma fillWrites_mem {α : Type _} (size : Nat) (writes : List (Nat × α))
    (res : List (Option α)) (P : α → Prop) (hw : ∀ w ∈ writes, P w.2)
    (h : fillWrites α size writes = some res) : ∀ v, some v ∈ res → P v := by
  suffices H : ∀ (ws : List (Nat × α)) (acc : List (Option α)),
      (∀ v, some v ∈ acc → P v) → (∀ w ∈ ws, P w.2) →
      ∀ res2, ws.foldl
        (fun (acc : Option (List (Option α))) (w : Nat × α) =>
          acc.bind fun (l : List (Option α)) =>
            if w.1 < l.length then some (l.set w.1 (some w.2)) else none)
        (some acc) = some res2 → ∀ v, some v ∈ res2 → P v by
    refine H writes (List.replicate size none) ?_ hw res h
    intro v hv
    have := List.eq_of_mem_replicate hv
    cases this
  intro ws
  induction ws with
  | nil =>
    intro acc hacc _ res2 hres
    obtain rfl : acc = res2 := by injection hres
    exact hacc
  | cons w ws ih =>
    intro acc hacc hws res2 hres
    simp only [List.foldl_cons, Option.some_bind] at hres
    by_cases hb : w.1 < acc.length
    · rw [if_pos hb] at hres
      refine ih (acc.set w.1 (some w.2)) ?_ (fun u hu => hws u (by simp [hu])) res2 hres
      intro v hv
      rcases List.mem_or_eq_of_mem_set hv with hv | hv
      · exact hacc v hv
      · obtain rfl : v = w.2 := by injection hv
        exact hws w (by simp)
    · rw [if_neg hb] at hres
      rw [fillWrites_none_foldl] at hres
      cases hres

lemma gather_sections_mem_eligible (st : LinkState) (l : List (Option Nat))
    (h : gather_sections st = some l) :
    ∀ v, some v ∈ l → (secOf st v).icf_eligible = true := by
  unfold gather_sections at h
  rw [Option.bind_eq_some] at h
  obtain ⟨si, _, h⟩ := h
  rw [Option.bind_eq_some] at h
  obtain ⟨a, _, h⟩ := h
  rw [Option.bind_eq_some] at h
  obtain ⟨b, _, h⟩ := h
  refine fillWrites_mem _ _ _ _ ?_ h
  intro w hw
  rw [List.mem_flatMap] at hw
  obtain ⟨p, _, hw⟩ := hw
  rw [List.mem_map] at hw
  obtain ⟨q, hq, rfl⟩ := hw
  obtain ⟨i, x⟩ := q
  have hx : x ∈ eligSecsOf st p.1 := List.snd_mem_of_mem_enum hq
  unfold eligSecsOf at hx
  rw [List.mem_filterMap] at hx
  obtain ⟨o, _, hok⟩ := hx
  match o with
  | none => simp at hok
  | some j =>
    have hok2 : (if (secOf st j).icf_eligible = true then some j else none) = some x :=
      hok
    by_cases hcond : (secOf st j).icf_eligible = true
    · show (secOf st x).icf_eligible = true
      rw [if_pos hcond] at hok2
      obtain rfl : j = x := by injection hok2
      exact hcond
    · rw [if_neg hcond] at hok2
      cases hok2

/-- C7: two sections passing the eligibility filter that are leaves (no
section relocations, at most one relocation per FDE) end the leaf phase
with the same leader iff their contents are byte-equal, they have the
same number of FDEs, and corresponding FDEs have equal length and equal
bytes after the first 8; the elected leader is a minimal-priority member
of the leaf-equality class; and leaf sections are never added to the
propagation participant set. -/
theorem leaf_dedup_correct (st : LinkState) (a b : Nat)
    (ha : a < st.secs.length) (hb : b < st.secs.length)
    (hca : consideredB st a = true) (hcb : consideredB st b = true)
    (hea : is_eligible (secOf st a) = true) (heb : is_eligible (secOf st b) = true)
    (hla : is_leaf (secOf st a) = true) (hlb : is_leaf (secOf st b) = true)
    (hfa : (secOf st a).icf_eligible = false) :
    ((secOf (leafPhase st) a).leader = (secOf (leafPhase st) b).leader ↔
      ((secOf st a).contents = (secOf st b).contents ∧
       (secOf st a).fdes.length = (secOf st b).fdes.length ∧
       ∀ i < (secOf st a).fdes.length,
         ((secOf st a).fdes.getD i default).contents.length =
           ((secOf st b).fdes.getD i default).contents.length ∧
         ((secOf st a).fdes.getD i default).contents.drop 8 =
           ((secOf st b).fdes.getD i default).contents.drop 8)) ∧
    (∃ r, (secOf (leafPhase st) a).leader = some r ∧
      r ∈ eligibleLeaves st ∧ leafEq (secOf st r) (secOf st a) = true ∧
      ∀ d ∈ eligibleLeaves st, leafEq (secOf st d) (secOf st a) = true →
        (secOf st r).priority ≤ (secOf st d).priority) ∧
    (∀ l, gather_sections (leafPhase st) = some l → some a ∉ l) := by
  have hmema : a ∈ eligibleLeaves st := (mem_eligibleLeaves st a).mpr ⟨hca, hea, hla⟩
  have hmemb : b ∈ eligibleLeaves st := (mem_eligibleLeaves st b).mpr ⟨hcb, heb, hlb⟩
  have hLa : (secOf (leafPhase st) a).leader = leafLeaderOf st a := by
    rw [secOf_leafPhase_of_leaf st a ha hca hea hla]
  have hLb : (secOf (leafPhase st) b).leader = leafLeaderOf st b := by
    rw [secOf_leafPhase_of_leaf st b hb hcb heb hlb]
  refine ⟨?_, ?_, ?_⟩
  · rw [hLa, hLb, leafLeaderOf_eq_iff st a b hmema hmemb, leafEq_iff]
  · obtain ⟨r, hr, hrm, hrx, hmin⟩ := leafLeaderOf_mem_spec st a hmema
    exact ⟨r, by rw [hLa]; exact hr, hrm, hrx, hmin⟩
  · intro l hl hmem
    have helig := gather_sections_mem_eligible (leafPhase st) l hl a hmem
    have hsame : (secOf (leafPhase st) a).icf_eligible = (secOf st a).icf_eligible := by
      rw [secOf_leafPhase_of_leaf st a ha hca hea hla]
    rw [hsame, hfa] at helig
    cases helig

/-- Witness state for C7: two byte-identical leaf sections in two files,
priorities 0 and 1. -/
def stW7 : LinkState :=
  { secs := [wSec, { wSec with priority := 1 }]
    objs := [{ sections := [some 0], symbols := [] },
             { sections := [some 1], symbols := [] }] }

/-- Witness for C7 at a concrete two-leaf state. -/
theorem leaf_dedup_correct_witness :
    ((secOf (leafPhase stW7) 0).leader = (secOf (leafPhase stW7) 1).leader ↔
      ((secOf stW7 0).contents = (secOf stW7 1).contents ∧
       (secOf stW7 0).fdes.length = (secOf stW7 1).fdes.length ∧
       ∀ i < (secOf stW7 0).fdes.length,
         ((secOf stW7 0).fdes.getD i default).contents.length =
           ((secOf stW7 1).fdes.getD i default).contents.length ∧
         ((secOf stW7 0).fdes.getD i default).contents.drop 8 =
           ((secOf stW7 1).fdes.getD i default).contents.drop 8)) ∧
    (∃ r, (secOf (leafPhase stW7) 0).leader = some r ∧
      r ∈ eligibleLeaves stW7 ∧ leafEq (secOf stW7 r) (secOf stW7 0) = true ∧
      ∀ d ∈ eligibleLeaves stW7, leafEq (secOf stW7 d) (secOf stW7 0) = true →
        (secOf stW7 r).priority ≤ (secOf stW7 d).priority) ∧
    (∀ l, gather_sections (leafPhase stW7) = some l → some 0 ∉ l) :=
  leaf_dedup_correct stW7 0 1 (by decide) (by decide) (by decide) (by decide)
    (by decide) (by decide) (by decide) (by decide) (by decide)

/-! ## The initial digest (icf.cc lines 76-148) -/

/-- A token absorbed into the SHA-256 stream of compute_digest.  The
digest is modelled as the exact token trace: the spec treats collisions
of the truncated hash as identity, so the absorbed trace is the
digest. -/
inductive Tok where
  | int : Int → Tok
  | raw : List Nat → Tok
deriving DecidableEq, Inhabited

/-- hash_i64 (icf.cc lines 80-82). -/
def hash_i64 (v : Int) : List Tok := [Tok.int v]

/-- hash_string (icf.cc lines 84-87): length-prefixed raw bytes. -/
def hash_string (s : List Nat) : List Tok := [Tok.int s.length, Tok.raw s]

/-- Embedding of hash_symbol (icf.cc lines 89-107). -/
def hash_symbol (st : LinkState) (sym : Symbol) : List Tok :=
  (match sym.frag with
   | some frag => hash_i64 2 ++ hash_string frag.data
   | none =>
     match sym.input_section with
     | none => hash_i64 3
     | some si =>
       match (secOf st si).leader with
       | some ld => hash_i64 4 ++ hash_i64 (secOf st ld).priority
       | none =>
         if (secOf st si).icf_eligible then hash_i64 5
         else hash_i64 6 ++ hash_i64 (secOf st si).priority) ++
    hash_i64 sym.value

/-- The FDE contribution to the digest (icf.cc lines 114-127): tail
bytes after the first 8, the FDE relocation count, then every FDE
relocation after the first as symbol fingerprint, type, offset,
addend. -/
def fde_tokens (st : LinkState) (fde : FdeRecord) : List Tok :=
  hash_string (fde.contents.drop 8) ++ hash_i64 fde.rels.length ++
    (fde.rels.drop 1).flatMap fun rel =>
      hash_symbol st rel.sym ++ hash_i64 rel.type ++ hash_i64 rel.offset ++
        hash_i64 rel.addend

/-- The relocation loop of compute_digest (icf.cc lines 129-145):
iterates the section relocations paired with their has_fragments flags,
consuming rel_fragments one entry per fragment relocation (the ref_idx
counter becomes list consumption). -/
def rel_tokens (st : LinkState) (syms : List Symbol) :
    List (ElfRela × Bool) → List SectionFragmentRef → List Tok
  | [], _ => []
  | (rel, hf) :: rest, frags =>
    hash_i64 rel.r_offset ++ hash_i64 rel.r_type ++ hash_i64 rel.r_addend ++
      (if hf then
        (hash_i64 1 ++ hash_i64 (frags.getD 0 default).addend ++
          hash_string (frags.getD 0 default).frag.data) ++
          rel_tokens st syms rest (frags.drop 1)
      else
        hash_symbol st (syms.getD rel.r_sym default) ++ rel_tokens st syms rest frags)

/-- Embedding of compute_digest (icf.cc lines 76-148) as the absorbed
token trace. -/
def compute_digest (st : LinkState) (isec : InputSection) : List Tok :=
  hash_string isec.contents ++ hash_i64 isec.shdr.sh_flags ++
    hash_i64 isec.fdes.length ++ hash_i64 isec.rels.length ++
    isec.fdes.flatMap (fde_tokens st) ++
    rel_tokens st ((st.objs.getD isec.fileIdx default).symbols)
      (isec.rels.zip isec.has_fragments) isec.rel_fragments

/-- The claim's description of the symbol fingerprint: tag 2 + fragment
bytes if the symbol resolves to a fragment; tag 3 if unresolved or
absolute; tag 4 + the leader's priority if the referent has an elected
leader; tag 5 with no further distinguishing payload if the referent is
an eligible participant; tag 6 + the referent's priority if the referent
is an ineligible section; in every case followed by the symbol's
value. -/
def symbol_fingerprint_spec (st : LinkState) (sym : Symbol) : List Tok :=
  (match sym.frag with
   | some frag => Tok.int 2 :: (Tok.int frag.data.length :: [Tok.raw frag.data])
   | none =>
     match sym.input_section with
     | none => [Tok.int 3]
     | some si =>
       if (secOf st si).leader.isSome then
         [Tok.int 4, Tok.int (secOf st ((secOf st si).leader.getD 0)).priority]
       else if (secOf st si).icf_eligible then [Tok.int 5]
       else [Tok.int 6, Tok.int (secOf st si).priority]) ++
    [Tok.int sym.value]

/-- Number of true flags, i.e. of fragment relocations, in a prefix. -/
def countTrue : List Bool → Nat
  | [] => 0
  | b :: t => (if b then 1 else 0) + countTrue t

/-- The claim's description of the relocation contribution: for
relocation i, in order, the triple (r_offset, r_type, r_addend) followed
by either tag 1 + addend + fragment bytes (the fragment reference being
indexed by the number of fragment relocations before i) or the symbol
fingerprint of the relocation's symbol. -/
def rel_tokens_spec (st : LinkState) (syms : List Symbol) (rels : List ElfRela)
    (hfs : List Bool) (frags : List SectionFragmentRef) : List Tok :=
  (List.range rels.length).flatMap fun i =>
    [Tok.int (rels.getD i default).r_offset, Tok.int (rels.getD i default).r_type,
      Tok.int (rels.getD i default).r_addend] ++
      (if hfs.getD i false then
        [Tok.int 1, Tok.int (frags.getD (countTrue (hfs.take i)) default).addend] ++
          hash_string (frags.getD (countTrue (hfs.take i)) default).frag.data
      else symbol_fingerprint_spec st (syms.getD (rels.getD i default).r_sym default))

lemma hash_symbol_eq_spec (st : LinkState) (sym : Symbol) :
    hash_symbol st sym = symbol_fingerprint_spec st sym := by
  unfold hash_symbol symbol_fingerprint_spec
  cases hf : sym.frag with
  | some frag => simp [hf, hash_i64, hash_string]
  | none =>
    cases hs : sym.input_section with
    | none => simp [hf, hs, hash_i64]
    | some si =>
      cases hl : (secOf st si).leader with
      | some ld => simp [hf, hs, hl, hash_i64]
      | none =>
        by_cases he : (secOf st si).icf_eligible = true
        · simp [hf, hs, hl, he, hash_i64]
        · simp [hf, hs, hl, he, hash_i64]

lemma flatMap_congr_mem {α β : Type _} (l : List α) (f g : α → List β)
    (h : ∀ a ∈ l, f a = g a) : l.flatMap f = l.flatMap g := by
  induction l with
  | nil => rfl
  | cons a l ih =>
    rw [List.flatMap_cons, List.flatMap_cons, h a (by simp),
      ih fun a ha => h a (by simp [ha])]

lemma rel_tokens_spec_cons (st : LinkState) (syms : List Symbol) (r : ElfRela)
    (rels : List ElfRela) (hf : Bool) (hfs : List Bool)
    (frags : List SectionFragmentRef) :
    rel_tokens_spec st syms (r :: rels) (hf :: hfs) frags =
      ([Tok.int r.r_offset, Tok.int r.r_type, Tok.int r.r_addend] ++
        (if hf then
          [Tok.int 1, Tok.int (frags.getD 0 default).addend] ++
            hash_string (frags.getD 0 default).frag.data
        else symbol_fingerprint_spec st (syms.getD r.r_sym default))) ++
      rel_tokens_spec st syms rels hfs (if hf then frags.drop 1 else frags) := by
  unfold rel_tokens_spec
  rw [show (r :: rels).length = rels.length + 1 from rfl, List.range_succ_eq_map,
    List.flatMap_cons, List.flatMap_map]
  congr 1
  apply flatMap_congr_mem
  intro i _
  simp only [Function.comp, List.getD_cons_succ, List.take_succ_cons]
  by_cases hhf : hf = true
  · subst hhf
    have hct : countTrue (true :: hfs.take i) = countTrue (hfs.take i) + 1 := by
      simp [countTrue, Nat.add_comm]
    rw [hct]
    have hfr : (if true = true then frags.drop 1 else frags) = frags.drop 1 := by simp
    rw [hfr]
    by_cases hfi : hfs.getD i false = true
    · simp only [if_pos hfi]
      have hdrop : (frags.drop 1).getD (countTrue (hfs.take i)) default =
          frags.getD (countTrue (hfs.take i) + 1) default := by
        simp [List.getD_eq_getElem?_getD, List.getElem?_drop, Nat.add_comm]
      rw [hdrop]
    · simp only [if_neg hfi]
  · have hf0 : hf = false := by simpa using hhf
    subst hf0
    have hct : countTrue (false :: hfs.take i) = countTrue (hfs.take i) := by
      simp [countTrue]
    rw [hct]
    have hfr : (if false = true then frags.drop 1 else frags) = frags := by simp
    rw [hfr]

lemma rel_tokens_eq_spec (st : LinkState) (syms : List Symbol) :
    ∀ (rels : List ElfRela) (hfs : List Bool) (frags : List SectionFragmentRef),
      hfs.length = rels.length →
      rel_tokens st syms (rels.zip hfs) frags =
        rel_tokens_spec st syms rels hfs frags := by
  intro rels
  induction rels with
  | nil =>
    intro hfs frags hlen
    have : hfs = [] := List.eq_nil_of_length_eq_zero hlen
    subst this
    rfl
  | cons r rels ih =>
    intro hfs frags hlen
    match hfs with
    | [] => simp at hlen
    | hf :: hfs =>
      have hlen2 : hfs.length = rels.length := by simpa using hlen
      rw [List.zip_cons_cons]
      rw [rel_tokens_spec_cons]
      show hash_i64 r.r_offset ++ hash_i64 r.r_type ++ hash_i64 r.r_addend ++ _ = _
      by_cases hhf : hf = true
      · subst hhf
        rw [if_pos rfl, if_pos rfl]
        rw [ih hfs (frags.drop 1) hlen2]
        simp [hash_i64, hash_string, List.append_assoc]
      · have hf0 : hf = false := by simpa using hhf
        subst hf0
        simp only [Bool.false_eq_true, if_false]
        rw [ih hfs frags hlen2]
        rw [hash_symbol_eq_spec]
        simp [hash_i64, List.append_assoc]

/-- C4: the initial digest trace consists of the header (length-prefixed
contents, flags, FDE count, relocation count) and the FDE records,
followed, for each section relocation in order, by (r_offset, r_type,
r_addend) and then either tag 1 + addend + fragment bytes for a fragment
relocation, or the symbol fingerprint exactly as the claim describes it
(tags 2-6, each case ending with the symbol's value). -/
theorem compute_digest_follows_spec (st : LinkState) (isec : InputSection)
    (hlen : isec.has_fragments.length = isec.rels.length) :
    compute_digest st isec =
      hash_string isec.contents ++
        [Tok.int isec.shdr.sh_flags, Tok.int isec.fdes.length,
          Tok.int isec.rels.length] ++
        isec.fdes.flatMap (fde_tokens st) ++
        rel_tokens_spec st ((st.objs.getD isec.fileIdx default).symbols)
          isec.rels isec.has_fragments isec.rel_fragments := by
  unfold compute_digest
  rw [rel_tokens_eq_spec st _ isec.rels isec.has_fragments isec.rel_fragments hlen]
  simp [hash_i64, List.append_assoc]

/-- Witness state for C4: a fragment, three sections (an eligible
participant, a folded leaf, an ineligible section) and a file with
symbols of every fingerprint kind. -/
def stW4 : LinkState :=
  { secs :=
      [{ wSec with icf_eligible := true },
       { wSec with leader := some 2, priority := 7 },
       { wSec with priority := 9 }]
    objs :=
      [{ sections := [some 0, some 1, some 2]
         symbols :=
           [{ frag := none, input_section := none, value := 11 },
            { frag := none, input_section := some 0, value := 12 },
            { frag := none, input_section := some 1, value := 13 },
            { frag := none, input_section := some 2, value := 14 },
            { frag := some { data := [1, 2] }, input_section := none, value := 15 }] }] }

/-- Witness section for C4: four symbol relocations of different kinds
and one fragment relocation. -/
def wSec4 : InputSection :=
  { wSec with
    rels :=
      [{ r_offset := 1, r_type := 2, r_addend := 3, r_sym := 0 },
       { r_offset := 4, r_type := 5, r_addend := 6, r_sym := 0 },
       { r_offset := 7, r_type := 8, r_addend := 9, r_sym := 1 },
       { r_offset := 10, r_type := 11, r_addend := 12, r_sym := 2 },
       { r_offset := 13, r_type := 14, r_addend := 15, r_sym := 3 }]
    has_fragments := [true, false, false, false, false]
    rel_fragments := [{ addend := 21, frag := { data := [3, 4] } }] }

/-- Witness for C4 at a concrete section with all fingerprint kinds. -/
theorem compute_digest_follows_spec_witness :
    compute_digest stW4 wSec4 =
      hash_string wSec4.contents ++
        [Tok.int wSec4.shdr.sh_flags, Tok.int wSec4.fdes.length,
          Tok.int wSec4.rels.length] ++
        wSec4.fdes.flatMap (fde_tokens stW4) ++
        rel_tokens_spec stW4 ((stW4.objs.getD wSec4.fileIdx default).symbols)
          wSec4.rels wSec4.has_fragments wSec4.rel_fragments :=
  compute_digest_follows_spec stW4 wSec4 (by decide)

/-! ## Propagation rounds (icf.cc lines 234-250 and 353-371)

The propagation digests are abstracted over their 16-byte representation:
D is the digest type and H the hash absorbing one digest (the section's
own current digest, always the first block) followed by the neighbor
digests in edge order.  The spec treats collisions of the truncated hash
as identity, so claims about distinctness assume H injective. -/

/-- The current digests of the out-neighbors of section i: edges[j] for
j in [edge_indices[i], e), where e is edge_indices[i+1], or edges.size()
for the last section (icf.cc lines 238-239, 245-246). -/
def neighborDigests (D : Type) [Inhabited D] (edges edge_indices : List Nat)
    (cur : List D) (i : Nat) : List D :=
  (List.range' (edge_indices.getD i 0)
    ((if i + 1 = cur.length then edges.length else edge_indices.getD (i + 1) 0) -
      edge_indices.getD i 0)).map
    fun j => cur.getD (edges.getD j 0) default

/-- Embedding of propagate (icf.cc lines 234-250): the next buffer holds,
for every section i, the hash of its own current digest followed by its
out-neighbors' current digests. -/
def propagate (D : Type) [Inhabited D] (H : D → List D → D)
    (edges edge_indices : List Nat) (cur : List D) : List D :=
  (List.range cur.length).map fun i =>
    H (cur.getD i default) (neighborDigests D edges edge_indices cur i)

/-- The double-buffered digest state of the propagation loop. -/
structure PropState (D : Type) where
  d0 : List D
  d1 : List D
  slot : Bool
deriving DecidableEq, Inhabited

/-- The current buffer, digests[slot]. -/
def curBuf {D : Type} (ps : PropState D) : List D :=
  if ps.slot then ps.d1 else ps.d0

/-- One iteration of the propagation loop body (icf.cc lines 361-362):
propagate writes the other buffer from the current one, then the slot
flips. -/
def stepRound (D : Type) [Inhabited D] (H : D → List D → D)
    (edges edge_indices : List Nat) (ps : PropState D) : PropState D :=
  if ps.slot then
    { d0 := propagate D H edges edge_indices ps.d1, d1 := ps.d1, slot := false }
  else
    { d0 := ps.d0, d1 := propagate D H edges edge_indices ps.d0, slot := true }

lemma curBuf_stepRound (D : Type) [Inhabited D] (H : D → List D → D)
    (edges edge_indices : List Nat) (ps : PropState D) :
    curBuf (stepRound D H edges edge_indices ps) =
      propagate D H edges edge_indices (curBuf ps) := by
  unfold curBuf stepRound
  by_cases h : ps.slot = true <;> simp [h]

lemma propagate_getD (D : Type) [Inhabited D] (H : D → List D → D)
    (edges edge_indices : List Nat) (cur : List D) (i : Nat)
    (hi : i < cur.length) :
    (propagate D H edges edge_indices cur).getD i default =
      H (cur.getD i default) (neighborDigests D edges edge_indices cur i) := by
  unfold propagate
  have hlen : i < ((List.range cur.length).map fun i =>
      H (cur.getD i default) (neighborDigests D edges edge_indices cur i)).length := by
    simpa using hi
  rw [getD_eq_get _ _ _ hlen]
  rw [List.getElem_map, List.getElem_range]

/-- C5: in every round, the next-buffer digest of section i is the hash
of its own current digest followed by the current digests of
edges[edge_indices[i] .. end) in relocation order (end = edges.size()
for the last section); the current-slot index then flips; and, with the
hash injective, two sections with equal current digests but differently
ordered neighbor digest sequences receive different next digests. -/
theorem propagate_round_spec (D : Type) [Inhabited D] (H : D → List D → D)
    (edges edge_indices : List Nat) (ps : PropState D) :
    (∀ i, i < (curBuf ps).length →
      (propagate D H edges edge_indices (curBuf ps)).getD i default =
        H ((curBuf ps).getD i default)
          ((List.range' (edge_indices.getD i 0)
            ((if i + 1 = (curBuf ps).length then edges.length
              else edge_indices.getD (i + 1) 0) - edge_indices.getD i 0)).map
            fun j => (curBuf ps).getD (edges.getD j 0) default)) ∧
    curBuf (stepRound D H edges edge_indices ps) =
      propagate D H edges edge_indices (curBuf ps) ∧
    (stepRound D H edges edge_indices ps).slot = !ps.slot ∧
    (Function.Injective (fun p : D × List D => H p.1 p.2) →
      ∀ i j, i < (curBuf ps).length → j < (curBuf ps).length →
        (curBuf ps).getD i default = (curBuf ps).getD j default →
        neighborDigests D edges edge_indices (curBuf ps) i ≠
          neighborDigests D edges edge_indices (curBuf ps) j →
        (propagate D H edges edge_indices (curBuf ps)).getD i default ≠
          (propagate D H edges edge_indices (curBuf ps)).getD j default) := by
  refine ⟨?_, curBuf_stepRound D H edges edge_indices ps, ?_, ?_⟩
  · intro i hi
    exact propagate_getD D H edges edge_indices (curBuf ps) i hi
  · unfold stepRound
    by_cases h : ps.slot = true <;> simp [h]
  · intro hinj i j hi hj hcur hnbr heq
    rw [propagate_getD D H edges edge_indices (curBuf ps) i hi,
      propagate_getD D H edges edge_indices (curBuf ps) j hj] at heq
    have := @hinj
      ((curBuf ps).getD i default, neighborDigests D edges edge_indices (curBuf ps) i)
      ((curBuf ps).getD j default, neighborDigests D edges edge_indices (curBuf ps) j)
      heq
    rw [Prod.mk.injEq] at this
    exact hnbr this.2

/-- An injective encoding of digest lists into Nat, used by the
propagation witnesses. -/
def encL : List Nat → Nat
  | [] => 0
  | a :: t => Nat.pair a (encL t) + 1

lemma encL_injective : Function.Injective encL := by
  intro x
  induction x with
  | nil =>
    intro y h
    cases y with
    | nil => rfl
    | cons b t => simp [encL] at h
  | cons a t ih =>
    intro y h
    cases y with
    | nil => simp [encL] at h
    | cons b u =>
      simp only [encL] at h
      have h2 : Nat.pair a (encL t) = Nat.pair b (encL u) := by omega
      rw [Nat.pair_eq_pair] at h2
      obtain ⟨rfl, h3⟩ := h2
      rw [ih h3]

/-- An injective hash on Nat digests for the propagation witnesses. -/
def pairH : Nat → List Nat → Nat := fun x ys => Nat.pair x (encL ys)

lemma pairH_injective :
    Function.Injective (fun p : Nat × List Nat => pairH p.1 p.2) := by
  rintro ⟨x1, y1⟩ ⟨x2, y2⟩ h
  simp only [pairH] at h
  rw [Nat.pair_eq_pair] at h
  obtain ⟨rfl, h2⟩ := h
  rw [encL_injective h2]

/-- Witness buffers for C5: sections 0 and 1 share a digest but list
their two neighbors in opposite orders. -/
def psW5 : PropState Nat := { d0 := [5, 5, 9], d1 := [0, 0, 0], slot := false }

/-- Witness for C5 at a concrete three-section state. -/
theorem propagate_round_spec_witness :
    ((propagate Nat pairH [2, 1, 1, 2] [0, 2, 4] (curBuf psW5)).getD 0 default =
      pairH ((curBuf psW5).getD 0 default)
        ((List.range' ([0, 2, 4].getD 0 0)
          ((if 0 + 1 = (curBuf psW5).length then ([2, 1, 1, 2] : List Nat).length
            else [0, 2, 4].getD (0 + 1) 0) - [0, 2, 4].getD 0 0)).map
          fun j => (curBuf psW5).getD ([2, 1, 1, 2].getD j 0) default)) ∧
    curBuf (stepRound Nat pairH [2, 1, 1, 2] [0, 2, 4] psW5) =
      propagate Nat pairH [2, 1, 1, 2] [0, 2, 4] (curBuf psW5) ∧
    (stepRound Nat pairH [2, 1, 1, 2] [0, 2, 4] psW5).slot = !psW5.slot ∧
    (propagate Nat pairH [2, 1, 1, 2] [0, 2, 4] (curBuf psW5)).getD 0 default ≠
      (propagate Nat pairH [2, 1, 1, 2] [0, 2, 4] (curBuf psW5)).getD 1 default := by
  obtain ⟨h1, h2, h3, h4⟩ := propagate_round_spec Nat pairH [2, 1, 1, 2] [0, 2, 4] psW5
  exact ⟨h1 0 (by decide), h2, h3,
    h4 pairH_injective 0 1 (by decide) (by decide) (by decide) (by decide)⟩

/-- C6: with the truncated hash injective on the absorbed inputs, one
propagation round maps sections with distinct current digests to
distinct next digests (the own digest is the first absorbed block), and
the number of distinct digests is nondecreasing from round r to round
r + 1 for every r. -/
theorem propagation_partition_monotone (D : Type) [Inhabited D] [DecidableEq D]
    (H : D → List D → D) (edges edge_indices : List Nat) (ps0 : PropState D)
    (hinj : Function.Injective fun p : D × List D => H p.1 p.2) :
    (∀ (cur : List D) i j, i < cur.length → j < cur.length →
      cur.getD i default ≠ cur.getD j default →
      (propagate D H edges edge_indices cur).getD i default ≠
        (propagate D H edges edge_indices cur).getD j default) ∧
    (∀ r : Nat,
      (curBuf ((stepRound D H edges edge_indices)^[r] ps0)).toFinset.card ≤
        (curBuf ((stepRound D H edges edge_indices)^[r + 1] ps0)).toFinset.card) := by
  have hproj : ∀ (cur : List D) i, i < cur.length →
      ∀ g : D → D, (∀ d nb, g (H d nb) = d) →
      g ((propagate D H edges edge_indices cur).getD i default) =
        cur.getD i default := by
    intro cur i hi g hg
    rw [propagate_getD D H edges edge_indices cur i hi, hg]
  constructor
  · intro cur i j hi hj hne heq
    rw [propagate_getD D H edges edge_indices cur i hi,
      propagate_getD D H edges edge_indices cur j hj] at heq
    have := @hinj
      (cur.getD i default, neighborDigests D edges edge_indices cur i)
      (cur.getD j default, neighborDigests D edges edge_indices cur j)
      heq
    rw [Prod.mk.injEq] at this
    exact hne this.1
  · intro r
    classical
    set cur := curBuf ((stepRound D H edges edge_indices)^[r] ps0) with hcur
    have hnext : curBuf ((stepRound D H edges edge_indices)^[r + 1] ps0) =
        propagate D H edges edge_indices cur := by
      rw [Function.iterate_succ_apply', curBuf_stepRound]
    rw [hnext]
    set g : D → D := fun d =>
      if h : ∃ p : D × List D, H p.1 p.2 = d then (Classical.choose h).1
      else default with hg
    have hgH : ∀ d nb, g (H d nb) = d := by
      intro d nb
      have hex : ∃ p : D × List D, H p.1 p.2 = H d nb := ⟨(d, nb), rfl⟩
      rw [hg]
      simp only [dif_pos hex]
      have hspec := Classical.choose_spec hex
      have : Classical.choose hex = (d, nb) := by
        apply hinj
        exact hspec
      rw [this]
    have hsub : cur.toFinset ⊆
        (propagate D H edges edge_indices cur).toFinset.image g := by
      intro x hx
      rw [List.mem_toFinset] at hx
      obtain ⟨i, hi, hix⟩ := List.mem_iff_getElem.mp hx
      rw [Finset.mem_image]
      refine ⟨(propagate D H edges edge_indices cur).getD i default, ?_, ?_⟩
      · rw [List.mem_toFinset]
        have hlen : i < (propagate D H edges edge_indices cur).length := by
          simpa [propagate] using hi
        rw [getD_eq_get _ _ _ hlen]
        exact List.getElem_mem hlen
      · have := hproj cur i hi g hgH
        rw [this, getD_eq_get _ _ _ hi, hix]
    calc cur.toFinset.card
        ≤ ((propagate D H edges edge_indices cur).toFinset.image g).card :=
          Finset.card_le_card hsub
      _ ≤ (propagate D H edges edge_indices cur).toFinset.card :=
          Finset.card_image_le

/-- Witness buffers for C6: two distinct digests among three sections. -/
def psW6 : PropState Nat := { d0 := [5, 9, 5], d1 := [0, 0, 0], slot := false }

/-- Witness for C6 at a concrete three-section state. -/
theorem propagation_partition_monotone_witness :
    ((curBuf psW6).getD 0 default ≠ (curBuf psW6).getD 1 default →
      (propagate Nat pairH [2, 1, 1, 2] [0, 2, 4] (curBuf psW6)).getD 0 default ≠
        (propagate Nat pairH [2, 1, 1, 2] [0, 2, 4] (curBuf psW6)).getD 1 default) ∧
    (curBuf ((stepRound Nat pairH [2, 1, 1, 2] [0, 2, 4])^[3] psW6)).toFinset.card ≤
      (curBuf ((stepRound Nat pairH [2, 1, 1, 2] [0, 2, 4])^[4] psW6)).toFinset.card := by
  obtain ⟨h1, h2⟩ :=
    propagation_partition_monotone Nat pairH [2, 1, 1, 2] [0, 2, 4] psW6 pairH_injective
  exact ⟨fun hne => h1 (curBuf psW6) 0 1 (by decide) (by decide) hne, h2 3⟩

/-! ## Class counting and convergence (icf.cc lines 252-262 and 353-371) -/

/-- The transition count of the inner loop of count_num_classes: the
number of indices i in [0, size - 1) with vec[i] != vec[i+1] (the
per-thread counters of the source sum to this). -/
def countTransitions {D : Type} [DecidableEq D] : List D → Nat
  | [] => 0
  | [_] => 0
  | a :: b :: rest => (if a ≠ b then 1 else 0) + countTransitions (b :: rest)

/-- Embedding of count_num_classes (icf.cc lines 252-262): copy the
digests, sort them (tbb::parallel_sort by the digest order is modelled
as a comparison sort producing the same sorted sequence), and count
adjacent transitions. -/
def count_num_classes {D : Type} [LinearOrder D] (digests : List D) : Nat :=
  countTransitions (digests.insertionSort (· ≤ ·))

/-- Embedding of the convergence loop of icf_sections (icf.cc lines
359-370), fuelled: every iteration runs propagate and flips the slot;
after iterations 9, 19, ... the class count of the current buffer is
compared with the previous count (num_classes starts at -1) and the loop
returns the executed round count at the first repeat. -/
def icfLoop (D : Type) [Inhabited D] [LinearOrder D] (H : D → List D → D)
    (edges edge_indices : List Nat) :
    Nat → PropState D → Nat → Int → Option (Nat × PropState D)
  | 0, _, _, _ => none
  | fuel + 1, ps, i, nc =>
    let ps2 := stepRound D H edges edge_indices ps
    if i % 10 = 9 then
      if (count_num_classes (curBuf ps2) : Int) = nc then some (i + 1, ps2)
      else
        icfLoop D H edges edge_indices fuel ps2 (i + 1)
          (count_num_classes (curBuf ps2))
    else icfLoop D H edges edge_indices fuel ps2 (i + 1) nc

/-- The class count after r rounds of propagation. -/
def classCountAt (D : Type) [Inhabited D] [LinearOrder D] (H : D → List D → D)
    (edges edge_indices : List Nat) (ps0 : PropState D) (r : Nat) : Nat :=
  count_num_classes (curBuf ((stepRound D H edges edge_indices)^[r] ps0))

lemma countTransitions_sorted {D : Type} [LinearOrder D] :
    ∀ l : List D, l.Sorted (· ≤ ·) →
      countTransitions l + (if l = [] then 0 else 1) = l.toFinset.card := by
  intro l
  induction l with
  | nil => intro _; simp [countTransitions]
  | cons a t ih =>
    intro hs
    cases t with
    | nil => simp [countTransitions]
    | cons b u =>
      have hs' : (b :: u).Sorted (· ≤ ·) := hs.of_cons
      have hab : a ≤ b := (List.sorted_cons.mp hs).1 b (by simp)
      by_cases hab2 : a = b
      · subst hab2
        have hct : countTransitions (a :: a :: u) = countTransitions (a :: u) := by
          simp [countTransitions]
        have htf : (a :: a :: u).toFinset = (a :: u).toFinset := by
          simp [List.toFinset_cons]
        rw [hct, htf, if_neg (List.cons_ne_nil a (a :: u))]
        have hrec := ih hs'
        rw [if_neg (List.cons_ne_nil a u)] at hrec
        omega
      · have hba : ∀ x ∈ b :: u, b ≤ x := by
          intro x hx
          rcases List.mem_cons.mp hx with rfl | hx
          · exact le_refl _
          · exact (List.sorted_cons.mp hs').1 x hx
        have hne : a ∉ (b :: u).toFinset := by
          rw [List.mem_toFinset]
          intro hmem2
          exact hab2 (le_antisymm hab (hba a hmem2))
        have hcard : (a :: b :: u).toFinset.card = (b :: u).toFinset.card + 1 := by
          rw [List.toFinset_cons, Finset.card_insert_of_not_mem hne]
        have hct : countTransitions (a :: b :: u) = 1 + countTransitions (b :: u) := by
          simp [countTransitions, hab2]
        rw [hcard, hct, if_neg (List.cons_ne_nil a (b :: u))]
        have hrec := ih hs'
        rw [if_neg (List.cons_ne_nil b u)] at hrec
        omega

lemma count_num_classes_eq {D : Type} [LinearOrder D] (l : List D) :
    count_num_classes l = l.toFinset.card - 1 := by
  unfold count_num_classes
  have hsort : (l.insertionSort (· ≤ ·)).Sorted (· ≤ ·) :=
    List.sorted_insertionSort (· ≤ ·) l
  have hperm : List.Perm (l.insertionSort (· ≤ ·)) l :=
    List.perm_insertionSort (· ≤ ·) l
  have htf : (l.insertionSort (· ≤ ·)).toFinset = l.toFinset :=
    List.toFinset_eq_of_perm _ _ hperm
  have hmain := countTransitions_sorted (l.insertionSort (· ≤ ·)) hsort
  by_cases hnil : l.insertionSort (· ≤ ·) = []
  · have hl : l = [] := List.Perm.eq_nil (hnil ▸ hperm).symm
    rw [hnil, hl]
    simp [countTransitions]
  · rw [if_neg hnil] at hmain
    rw [← htf]
    omega

lemma icfLoop_spec (D : Type) [Inhabited D] [LinearOrder D] (H : D → List D → D)
    (edges ei : List Nat) (ps0 : PropState D) :
    ∀ (fuel i : Nat) (nc : Int) (R : Nat) (psf : PropState D),
      (i < 10 → nc = -1) →
      (10 ≤ i → nc = (classCountAt D H edges ei ps0 (10 * (i / 10)) : Int)) →
      (∀ m, 2 ≤ m → m ≤ i / 10 →
        classCountAt D H edges ei ps0 (10 * m) ≠
          classCountAt D H edges ei ps0 (10 * m - 10)) →
      icfLoop D H edges ei fuel ((stepRound D H edges ei)^[i] ps0) i nc =
        some (R, psf) →
      R % 10 = 0 ∧ 20 ≤ R ∧
        classCountAt D H edges ei ps0 R = classCountAt D H edges ei ps0 (R - 10) ∧
        (∀ m, 2 ≤ m → 10 * m < R →
          classCountAt D H edges ei ps0 (10 * m) ≠
            classCountAt D H edges ei ps0 (10 * m - 10)) ∧
        psf = (stepRound D H edges ei)^[R] ps0 := by
  intro fuel
  induction fuel with
  | zero =>
    intro i nc R psf _ _ _ h
    cases h
  | succ fuel ih =>
    intro i nc R psf hlt hge hprev h
    simp only [icfLoop] at h
    rw [← Function.iterate_succ_apply' (stepRound D H edges ei) i ps0] at h
    have hccdef : count_num_classes (curBuf ((stepRound D H edges ei)^[i + 1] ps0)) =
        classCountAt D H edges ei ps0 (i + 1) := rfl
    rw [hccdef] at h
    by_cases hmod : i % 10 = 9
    · rw [if_pos hmod] at h
      by_cases heq : (classCountAt D H edges ei ps0 (i + 1) : Int) = nc
      · rw [if_pos heq, Option.some_inj, Prod.mk.injEq] at h
        obtain ⟨hR, hpsf⟩ := h
        subst hR
        have hq : 10 ≤ i := by
          by_contra hlt10
          push_neg at hlt10
          have hnc := hlt hlt10
          rw [hnc] at heq
          have hpos : (0 : Int) ≤ (classCountAt D H edges ei ps0 (i + 1) : Int) :=
            Int.natCast_nonneg _
          omega
        have hnc := hge hq
        rw [hnc] at heq
        have hcast : classCountAt D H edges ei ps0 (i + 1) =
            classCountAt D H edges ei ps0 (10 * (i / 10)) := by
          exact_mod_cast heq
        refine ⟨by omega, by omega, ?_, ?_, hpsf.symm⟩
        · have h10 : i + 1 - 10 = 10 * (i / 10) := by omega
          rw [h10]
          exact hcast
        · intro m hm2 hmR
          exact hprev m hm2 (by omega)
      · rw [if_neg heq] at h
        refine ih (i + 1) (classCountAt D H edges ei ps0 (i + 1)) R psf ?_ ?_ ?_ h
        · intro hlt10
          omega
        · intro _
          have h11 : 10 * ((i + 1) / 10) = i + 1 := by omega
          rw [h11]
        · intro m hm2 hmle
          by_cases hmq : m ≤ i / 10
          · exact hprev m hm2 hmq
          · have hq : 10 ≤ i := by omega
            have hmeq : 10 * m = i + 1 := by omega
            have h10 : 10 * m - 10 = 10 * (i / 10) := by omega
            rw [h10, hmeq]
            intro hccEq
            apply heq
            rw [hge hq]
            exact_mod_cast hccEq
    · rw [if_neg hmod] at h
      refine ih (i + 1) nc R psf ?_ ?_ ?_ h
      · intro hlt10
        exact hlt (by omega)
      · intro hge10
        have hi10 : 10 ≤ i := by omega
        have h11 : (i + 1) / 10 = i / 10 := by omega
        rw [h11]
        exact hge hi10
      · intro m hm2 hmle
        have h11 : (i + 1) / 10 = i / 10 := by omega
        exact hprev m hm2 (by omega)

/-- C2 counterexample: the class-counting step returns 0 on a singleton
digest vector although the number of distinct digests is 1, refuting
the claim that it returns the cardinality of the digest partition. -/
theorem count_num_classes_counterexample :
    count_num_classes ([5] : List Nat) = 0 ∧
      ([5] : List Nat).toFinset.card = 1 := by
  constructor
  · decide
  · decide

/-- C2 as amended: the class-counting step returns the number of
distinct digests minus one (it counts adjacent transitions of the
sorted vector); and the propagation loop evaluates it after every 10
rounds, stopping exactly at the first evaluation equal to the previous
one: a returned round count R is a multiple of 10, at least 20, the
class count after R rounds equals the one after R - 10 rounds, every
earlier consecutive pair of evaluations differs, and the final state is
the R-fold iterate. -/
theorem class_count_and_convergence :
    (∀ (D : Type) [LinearOrder D] (l : List D),
      count_num_classes l = l.toFinset.card - 1) ∧
    (∀ (D : Type) [Inhabited D] [LinearOrder D] (H : D → List D → D)
      (edges ei : List Nat) (ps0 : PropState D) (fuel R : Nat)
      (psf : PropState D),
      icfLoop D H edges ei fuel ps0 0 (-1) = some (R, psf) →
      R % 10 = 0 ∧ 20 ≤ R ∧
        classCountAt D H edges ei ps0 R =
          classCountAt D H edges ei ps0 (R - 10) ∧
        (∀ m, 2 ≤ m → 10 * m < R →
          classCountAt D H edges ei ps0 (10 * m) ≠
            classCountAt D H edges ei ps0 (10 * m - 10)) ∧
        psf = (stepRound D H edges ei)^[R] ps0) := by
  constructor
  · intro D _ l
    exact count_num_classes_eq l
  · intro D _ _ H edges ei ps0 fuel R psf h
    refine icfLoop_spec D H edges ei ps0 fuel 0 (-1) R psf
      (fun _ => rfl) (fun h10 => by omega) (fun m hm2 hm0 => by omega) ?_
    rw [Function.iterate_zero_apply]
    exact h

/-- Hash used by the convergence witness. -/
def loopHW : Nat → List Nat → Nat := fun x ys => x + ys.sum

/-- Witness buffers for C2: a single section. -/
def psW2 : PropState Nat := { d0 := [7], d1 := [0], slot := false }

/-- Witness for C2 as amended: the counting equation at a concrete
vector, and a concrete one-section loop converging after 20 rounds. -/
theorem class_count_and_convergence_witness :
    count_num_classes ([5] : List Nat) = ([5] : List Nat).toFinset.card - 1 ∧
    (20 % 10 = 0 ∧ 20 ≤ 20 ∧
      classCountAt Nat loopHW [] [0] psW2 20 =
        classCountAt Nat loopHW [] [0] psW2 (20 - 10) ∧
      (∀ m, 2 ≤ m → 10 * m < 20 →
        classCountAt Nat loopHW [] [0] psW2 (10 * m) ≠
          classCountAt Nat loopHW [] [0] psW2 (10 * m - 10)) ∧
      ({ d0 := [7], d1 := [7], slot := false } : PropState Nat) =
        (stepRound Nat loopHW [] [0])^[20] psW2) :=
  ⟨class_count_and_convergence.1 Nat [5],
    class_count_and_convergence.2 Nat loopHW [] [0] psW2 21 20
      { d0 := [7], d1 := [7], slot := false } (by decide)⟩

end Mold
